import Mathlib

/-!
Verification of the vocabulary-trainer application (streamlit_app-4.py).

This file gives a shallow embedding of the application's pure core —
the text normalizer, the .docx importer, the store update performed by
the import handler, multiple-choice option building, and the quiz
session state machine — and proves the documented properties about it.

Modelling conventions:
* Python strings are modelled as Lean `String` / `List Char`.
* `str.lower()`, `unicodedata.normalize("NFKD", ·)` and
  `unicodedata.combining` are modelled on a character domain consisting
  of ASCII together with the precomposed Latin letters used by the
  application's two languages and the corresponding combining marks
  (U+0300–U+036F); outside this domain the maps act as the identity.
* `random.shuffle` and `random.sample` are nondeterministic; theorems
  quantify over the shuffled/sampled list, constrained by
  `List.Perm` / `List.Subperm` hypotheses.
* `list(set(...))` (exact-string deduplication in arbitrary order) is
  modelled by quantifying over a list that is a permutation of
  `List.dedup` of the underlying list.
-/

namespace Vocab

/-- Python whitespace (`str.strip` / `str.split` with no argument),
restricted to the ASCII whitespace characters. -/
def isPySpace (c : Char) : Bool :=
  c == ' ' || c == '\t' || c == '\n' || c == '\r' || c == '\x0b' || c == '\x0c'

/-- Model of `unicodedata.combining(ch) != 0`: the combining diacritical
marks block U+0300–U+036F (all of whose members have a nonzero combining
class). -/
def isCombining (c : Char) : Bool :=
  decide (0x300 ≤ c.toNat) && decide (c.toNat ≤ 0x36F)

/-- Uppercase-to-lowercase table modelling `str.lower()` on the ASCII
letters (the identity elsewhere in the modelled domain). -/
def ucLowerTable : List (Char × Char) :=
  [('A','a'),('B','b'),('C','c'),('D','d'),('E','e'),('F','f'),('G','g'),
   ('H','h'),('I','i'),('J','j'),('K','k'),('L','l'),('M','m'),('N','n'),
   ('O','o'),('P','p'),('Q','q'),('R','r'),('S','s'),('T','t'),('U','u'),
   ('V','v'),('W','w'),('X','x'),('Y','y'),('Z','z')]

/-- Character-level model of Python `str.lower()`. -/
def pyLowerChar (c : Char) : Char :=
  match ucLowerTable.find? (fun p => p.1 == c) with
  | some p => p.2
  | none => c

/-- NFKD decompositions (`unicodedata.normalize("NFKD", ·)`) of the
precomposed Latin letters in the modelled domain. -/
def nfkdTable : List (Char × List Char) :=
  [('à', ['a', '̀']), ('â', ['a', '̂']), ('ä', ['a', '̈']),
   ('é', ['e', '́']), ('è', ['e', '̀']), ('ê', ['e', '̂']),
   ('ë', ['e', '̈']), ('î', ['i', '̂']), ('ï', ['i', '̈']),
   ('ô', ['o', '̂']), ('ö', ['o', '̈']), ('û', ['u', '̂']),
   ('ü', ['u', '̈']), ('ù', ['u', '̀']), ('ç', ['c', '̧'])]

/-- Character-level NFKD decomposition. -/
def nfkdChar (c : Char) : List Char :=
  match nfkdTable.find? (fun p => p.1 == c) with
  | some p => p.2
  | none => [c]

/-- Model of `s.strip()`: drop whitespace from both ends. -/
def stripL (l : List Char) : List Char :=
  ((l.dropWhile isPySpace).reverse.dropWhile isPySpace).reverse

/-- Model of `s.lower()`: character-wise lowercasing. -/
def lowerL (l : List Char) : List Char := l.map pyLowerChar

/-- Accumulator worker for `wordsOf` (Python `s.split()` with no
argument: maximal runs of non-whitespace characters). -/
def wordsAux : List Char → List Char → List (List Char)
  | [], acc => if acc.isEmpty then [] else [acc.reverse]
  | c :: t, acc =>
    if isPySpace c then
      if acc.isEmpty then wordsAux t [] else acc.reverse :: wordsAux t []
    else wordsAux t (c :: acc)

/-- Model of `s.split()` with no argument. -/
def wordsOf (l : List Char) : List (List Char) := wordsAux l []

/-- Model of `" ".join(ws)`. -/
def joinSp : List (List Char) → List Char
  | [] => []
  | [w] => w
  | w :: ws => w ++ ' ' :: joinSp ws

/-- Model of `" ".join(s.split())`. -/
def collapseL (l : List Char) : List Char := joinSp (wordsOf l)

/-- Model of `unicodedata.normalize("NFKD", s)` on a string. -/
def nfkdL (l : List Char) : List Char := (l.map nfkdChar).flatten

/-- Model of `"".join(ch for ch in s if not unicodedata.combining(ch))`. -/
def stripComb (l : List Char) : List Char := l.filter (fun c => !isCombining c)

/-- The body of `normalize` from the source:
`s = s.strip().lower()`; `s = " ".join(s.split())`;
`s = unicodedata.normalize("NFKD", s)`;
`s = "".join(ch for ch in s if not unicodedata.combining(ch))`. -/
def normalizeL (l : List Char) : List Char :=
  stripComb (nfkdL (collapseL (lowerL (stripL l))))

/-- `normalize` lifted to `String`. -/
def normalize (s : String) : String := String.mk (normalizeL s.data)

/-- The `Entry` dataclass: a German term, a French term, and the name of
the collection the entry came from. -/
structure Entry where
  de : String
  fr : String
  source : String
deriving DecidableEq, Repr

/-- `qa_pair`: the (prompt, expected answer) pair of an entry under a
quiz direction (`mode` is the literal string `"DE→FR"` or `"FR→DE"`). -/
def qa_pair (e : Entry) (mode : String) : String × String :=
  if mode = "DE→FR" then (e.de, e.fr) else (e.fr, e.de)

/-! ## Importer (`import_docx`) -/

/-- Does `needle` occur at the start of the second list?  (Helper for
Python's substring test `needle in haystack`.) -/
def listBeginsWith : List Char → List Char → Bool
  | [], _ => true
  | _ :: _, [] => false
  | a :: as, b :: bs => a == b && listBeginsWith as bs

/-- Python substring containment `needle in haystack`. -/
def containsSub (needle : List Char) : List Char → Bool
  | [] => needle.isEmpty
  | c :: t => listBeginsWith needle (c :: t) || containsSub needle t

/-- Python `t.split(";")`: split on every occurrence of the semicolon,
keeping empty segments. -/
def splitSemi : List Char → List (List Char)
  | [] => [[]]
  | c :: t =>
    if c = ';' then [] :: splitSemi t
    else
      match splitSemi t with
      | [] => [[c]]
      | h :: r => (c :: h) :: r

/-- `str.strip` lifted to `String`. -/
def stripS (s : String) : String := String.mk (stripL s.data)

/-- `str.lower` lifted to `String`. -/
def lowerS (s : String) : String := String.mk (lowerL s.data)

/-- A .docx document as seen by the importer: the cell texts of each
table row, and the paragraph texts. -/
structure Doc where
  tables : List (List (List String))
  paragraphs : List String

/-- One row of a table, as processed by the table loop of `import_docx`:
strip every cell, require at least two cells and both leading cells
non-empty, and skip a first row whose two cells contain the language
codes "de" and "fr" (case-insensitively). -/
def rowItem (hint : String) (ri : Nat) (row : List String) : Option Entry :=
  let cells := row.map stripS
  if cells.length < 2 then none
  else
    let de := cells.getD 0 ""
    let fr := cells.getD 1 ""
    if de = "" ∨ fr = "" then none
    else if ri = 0 ∧ containsSub "de".data (lowerS de).data = true
            ∧ containsSub "fr".data (lowerS fr).data = true then none
    else some ⟨de, fr, hint⟩

/-- All entries extracted from one table (`for r_i, row in
enumerate(tbl.rows)`). -/
def tableItems (hint : String) (tbl : List (List String)) : List Entry :=
  tbl.enum.filterMap (fun p => rowItem hint p.1 p.2)

/-- One paragraph, as processed by the paragraph loop of `import_docx`:
strip, require a semicolon, split on semicolons, strip the parts, and
require at least two parts with the first two non-empty. -/
def paraItem (hint : String) (p : String) : Option Entry :=
  let t := stripL p.data
  if ';' ∈ t then
    let parts := (splitSemi t).map stripL
    if 2 ≤ parts.length ∧ parts.getD 0 [] ≠ [] ∧ parts.getD 1 [] ≠ [] then
      some ⟨String.mk (parts.getD 0 []), String.mk (parts.getD 1 []), hint⟩
    else none
  else none

/-- The raw extracted pair list of `import_docx`, before deduplication:
all table rows, then all delimiter paragraphs. -/
def rawItems (doc : Doc) (hint : String) : List Entry :=
  (doc.tables.map (tableItems hint)).flatten
    ++ doc.paragraphs.filterMap (paraItem hint)

/-- The normalized key used by the importer's `seen` set. -/
def keyOf (e : Entry) : String × String := (normalize e.de, normalize e.fr)

/-- The deduplication loop of `import_docx`: keep an entry iff its
normalized (de, fr) key has not been seen before. -/
def dedupe : List Entry → List (String × String) → List Entry
  | [], _ => []
  | e :: rest, seen =>
    if keyOf e ∈ seen then dedupe rest seen
    else e :: dedupe rest (keyOf e :: seen)

/-- `import_docx` (its pure parsing part; the availability check and
file decoding are I/O): returns the collection name and the
deduplicated entry list. -/
def import_docx (doc : Doc) (name_hint : String) : String × List Entry :=
  (if name_hint = "" then "Import" else name_hint, dedupe (rawItems doc name_hint) [])

/-! ## Store update performed by the "Import starten" handler -/

/-- A stored collection: `{"name": ..., "items": [{"de": ..., "fr": ...}]}`. -/
structure Coll where
  name : String
  items : List (String × String)
deriving DecidableEq, Repr

/-- The store mutation of the "Import starten" handler once a non-empty
item list was parsed: if a collection of that name exists, replace it at
its index when `overwrite` is set and reject otherwise (returning
`false`); else append the new collection.  The returned Bool records
success. -/
def importIntoStore (colls : List Coll) (name : String)
    (items : List (String × String)) (overwrite : Bool) : List Coll × Bool :=
  let names := colls.map Coll.name
  if name ∈ names then
    if overwrite then (colls.set (names.indexOf name) ⟨name, items⟩, true)
    else (colls, false)
  else (colls ++ [⟨name, items⟩], true)

/-! ## Multiple-choice option building (`build_mc_options`)

`build_mc_options` shuffles twice and iterates over `list({...})`; the
function below takes the already-shuffled distractor lists as arguments
(`wrongs`, `pool_global`), and theorems additionally quantify over a
final permutation standing for the closing `random.shuffle(options)`. -/

/-- The global-fill loop: `for a in pool_global: if a not in options:
options.append(a); if len(options) == 4: break`. -/
def fillLoop : List String → List String → List String
  | [], options => options
  | a :: rest, options =>
    let options' := if a ∈ options then options else options ++ [a]
    if options'.length = 4 then options' else fillLoop rest options'

/-- The padding loop `while len(options) < 4: options.append(correct)`,
written in closed form. -/
def padTo4 (correct : String) (options : List String) : List String :=
  options ++ List.replicate (4 - options.length) correct

/-- `build_mc_options` up to the final shuffle: `options = [correct] +
wrongs[:3]`, then the global fill when fewer than 4, then padding with
the correct answer. -/
def build_mc_options (correct : String) (wrongs pool_global : List String) :
    List String :=
  let options := [correct] ++ wrongs.take 3
  padTo4 correct (if options.length < 4 then fillLoop pool_global options else options)

/-! ## Quiz session state machine -/

/-- The `st.session_state.quiz` dictionary. -/
structure Quiz where
  items : List Entry
  order : List Nat
  i : Nat
  score : Nat
  history : List (String × String × String × String)
  mode : String
  quiztype : String
  phase : String
  cachedOptions : List (Nat × List String)
  last_ok : Bool
  last_given : String
deriving Repr

/-- Default entry used for the (guarded, hence never out-of-range)
list indexing `items[order[i]]`. -/
def noEntry : Entry := ⟨"", "", ""⟩

/-- The state built by the "Quiz starten" handler from the sampled
entries and the shuffled order.  `last_ok`/`last_given` model the
`q.get("last_ok", False)` / `q.get("last_given", "")` defaults. -/
def startQuiz (chosen : List Entry) (order : List Nat)
    (mode quiztype : String) : Quiz :=
  { items := chosen, order := order, i := 0, score := 0, history := [],
    mode := mode, quiztype := quiztype, phase := "ask", cachedOptions := [],
    last_ok := false, last_given := "" }

/-- `e = items[order[i]]`. -/
def currentEntry (q : Quiz) : Entry := q.items.getD (q.order.getD q.i 0) noEntry

/-- The "Prüfen" handler: an empty (falsy) input is rejected with a
warning and no state change; otherwise the verdict and the given answer
are stored and the phase moves to feedback. -/
def submitStep (q : Quiz) (input : String) : Quiz :=
  if input = "" then q
  else
    { q with last_ok := normalize input == normalize (qa_pair (currentEntry q) q.mode).2,
             last_given := input, phase := "feedback" }

/-- The "Weiter" handler: commit the pending verdict into the score,
append the history record, advance the index, return to the ask phase. -/
def advanceStep (q : Quiz) : Quiz :=
  { q with
    score := if q.last_ok then q.score + 1 else q.score,
    history := q.history ++ [((qa_pair (currentEntry q) q.mode).1, q.last_given,
      if q.last_ok then "Ja" else "Nein", (qa_pair (currentEntry q) q.mode).2)],
    i := q.i + 1, phase := "ask" }

/-- The quiz view shows the final score screen when the index is
exhausted. -/
def isDone (q : Quiz) : Prop := q.order.length ≤ q.i

/-- Quiz states reachable through the UI: a start (button enabled only
for a pool of at least 4 entries; `n = min(int(num_q), len(entries))`
entries sampled without replacement; the order a shuffle of `range(n)`),
followed by submits (offered in the ask phase of an unfinished session)
and advances (offered in the feedback phase of an unfinished session). -/
inductive Reachable : Quiz → Prop
  | start (entries chosen : List Entry) (order : List Nat) (numQ : Nat)
      (mode quiztype : String)
      (hpool : 4 ≤ entries.length)
      (hch : chosen.Subperm entries)
      (hlen : chosen.length = min numQ entries.length)
      (hord : order.Perm (List.range chosen.length)) :
      Reachable (startQuiz chosen order mode quiztype)
  | submit (q : Quiz) (input : String) (hq : Reachable q)
      (hphase : q.phase = "ask") (hi : q.i < q.order.length) :
      Reachable (submitStep q input)
  | advance (q : Quiz) (hq : Reachable q)
      (hphase : q.phase = "feedback") (hi : q.i < q.order.length) :
      Reachable (advanceStep q)

/-- A concrete four-entry pool used to instantiate theorems with
hypotheses. -/
def demoEntries : List Entry :=
  [⟨"Hund", "chien", "w"⟩, ⟨"Katze", "chat", "w"⟩,
   ⟨"Haus", "maison", "w"⟩, ⟨"Brot", "pain", "w"⟩]

/-- A concrete freshly started quiz over `demoEntries`. -/
def demoQuiz : Quiz := startQuiz demoEntries [0, 1, 2, 3] "DE→FR" "Freitext"

/-- A concrete store with two collections. -/
def demoStore : List Coll :=
  [⟨"A", [("Hund", "chien")]⟩, ⟨"B", [("Katze", "chat")]⟩]

/-- A concrete document whose paragraphs contain a case/accent
duplicate pair. -/
def demoDoc : Doc :=
  ⟨[], ["Hund ; chien", "hund;CHIEN", "die Urgeschichte ; la Préhistoire",
        "die Urgeschichte;la prehistoire", "Katze ; chat"]⟩

/-- Performing `n` complete interaction rounds (submit the `k`-th
answer, then advance) on a quiz state. -/
def runRounds (q : Quiz) (ans : Nat → String) : Nat → Quiz
  | 0 => q
  | k + 1 => advanceStep (submitStep (runRounds q ans k) (ans k))

/-- A character is inert when all four stages of `normalize` leave it
alone: fixed by lowering, trivially NFKD-decomposed, neither a
combining mark nor whitespace. -/
abbrev Inert (c : Char) : Prop :=
  pyLowerChar c = c ∧ nfkdChar c = [c] ∧ isCombining c = false ∧ isPySpace c = false

/-- A canonical word list: every word is non-empty and made of inert
characters.  `joinSp` of such a list is a fixpoint of `normalize`. -/
def GoodWords (ws : List (List Char)) : Prop :=
  ∀ w ∈ ws, w ≠ [] ∧ ∀ c ∈ w, Inert c

/-! ## Claim theorems -/

/-- C7: in the ask phase, submitting an empty answer is rejected and
leaves the whole session state unchanged, while submitting a non-empty
answer records the verdict `normalize(given) == normalize(expected)`
and the given answer, moves to the feedback phase, and changes neither
score nor history (nor the question data). -/
theorem C7_submit_spec (q : Quiz) (input : String) (_hphase : q.phase = "ask") :
    submitStep q "" = q ∧
    (input ≠ "" →
      (submitStep q input).phase = "feedback" ∧
      (submitStep q input).last_given = input ∧
      (submitStep q input).last_ok
        = (normalize input == normalize (qa_pair (currentEntry q) q.mode).2) ∧
      (submitStep q input).i = q.i ∧
      (submitStep q input).score = q.score ∧
      (submitStep q input).history = q.history ∧
      (submitStep q input).items = q.items ∧
      (submitStep q input).order = q.order) := by
  refine ⟨by simp [submitStep], fun h => ?_⟩
  simp [submitStep, h]

/-- Witness for C7 at a concrete quiz state and input, with the
non-emptiness hypothesis discharged. -/
theorem C7_submit_spec_witness :
    submitStep demoQuiz "" = demoQuiz ∧
    ((submitStep demoQuiz "chien").phase = "feedback" ∧
      (submitStep demoQuiz "chien").last_given = "chien" ∧
      (submitStep demoQuiz "chien").last_ok
        = (normalize "chien" == normalize (qa_pair (currentEntry demoQuiz) demoQuiz.mode).2) ∧
      (submitStep demoQuiz "chien").i = demoQuiz.i ∧
      (submitStep demoQuiz "chien").score = demoQuiz.score ∧
      (submitStep demoQuiz "chien").history = demoQuiz.history ∧
      (submitStep demoQuiz "chien").items = demoQuiz.items ∧
      (submitStep demoQuiz "chien").order = demoQuiz.order) :=
  ⟨(C7_submit_spec demoQuiz "chien" rfl).1,
   (C7_submit_spec demoQuiz "chien" rfl).2 (by decide)⟩

/-- C8: importing under a name already present in the store is rejected
when the overwrite flag is off — the handler returns the store exactly
unchanged — and with the flag on, the collection of that name is
replaced (at its first index) by the newly imported collection. -/
theorem C8_duplicate_name_guard (colls : List Coll) (name : String)
    (items : List (String × String))
    (hname : name ∈ colls.map Coll.name) :
    importIntoStore colls name items false = (colls, false) ∧
    (importIntoStore colls name items true).1
      = colls.set ((colls.map Coll.name).indexOf name) ⟨name, items⟩ ∧
    (importIntoStore colls name items true).1[(colls.map Coll.name).indexOf name]?
      = some ⟨name, items⟩ ∧
    (importIntoStore colls name items true).2 = true := by
  have hidx : (colls.map Coll.name).indexOf name < colls.length := by
    have h := List.indexOf_lt_length.2 hname
    simpa using h
  refine ⟨by simp [importIntoStore, hname], by simp [importIntoStore, hname], ?_,
    by simp [importIntoStore, hname]⟩
  simp only [importIntoStore, hname, if_pos, if_true]
  exact List.getElem?_set_eq_of_lt _ hidx

/-- Witness for C8 at a concrete store. -/
theorem C8_duplicate_name_guard_witness :
    importIntoStore demoStore "B" [("neu", "nouveau")] false = (demoStore, false) ∧
    (importIntoStore demoStore "B" [("neu", "nouveau")] true).1
      = demoStore.set ((demoStore.map Coll.name).indexOf "B") ⟨"B", [("neu", "nouveau")]⟩ ∧
    (importIntoStore demoStore "B" [("neu", "nouveau")] true).1[(demoStore.map Coll.name).indexOf "B"]?
      = some ⟨"B", [("neu", "nouveau")]⟩ ∧
    (importIntoStore demoStore "B" [("neu", "nouveau")] true).2 = true :=
  C8_duplicate_name_guard demoStore "B" [("neu", "nouveau")] (by decide)

/-- C10: an overwriting import replaces the old collection in place:
the store keeps its length, the new collection sits at the index the
old one occupied, and every other position is unchanged. -/
theorem C10_overwrite_in_place (colls : List Coll) (name : String)
    (items : List (String × String))
    (hname : name ∈ colls.map Coll.name) :
    (importIntoStore colls name items true).1.length = colls.length ∧
    (importIntoStore colls name items true).1[(colls.map Coll.name).indexOf name]?
      = some ⟨name, items⟩ ∧
    ∀ j, j ≠ (colls.map Coll.name).indexOf name →
      (importIntoStore colls name items true).1[j]? = colls[j]? := by
  have hidx : (colls.map Coll.name).indexOf name < colls.length := by
    have h := List.indexOf_lt_length.2 hname
    simpa using h
  refine ⟨by simp [importIntoStore, hname], ?_, fun j hj => ?_⟩
  · simp only [importIntoStore, hname, if_pos, if_true]
    exact List.getElem?_set_eq_of_lt _ hidx
  · simp only [importIntoStore, hname, if_pos, if_true]
    exact List.getElem?_set_ne (Ne.symm hj)

/-- Witness for C10 at a concrete store, with the untouched position 1
checked explicitly. -/
theorem C10_overwrite_in_place_witness :
    (importIntoStore demoStore "A" [("neu", "nouveau")] true).1.length = demoStore.length ∧
    (importIntoStore demoStore "A" [("neu", "nouveau")] true).1[(demoStore.map Coll.name).indexOf "A"]?
      = some ⟨"A", [("neu", "nouveau")]⟩ ∧
    (importIntoStore demoStore "A" [("neu", "nouveau")] true).1[1]? = demoStore[1]? :=
  ⟨(C10_overwrite_in_place demoStore "A" [("neu", "nouveau")] (by decide)).1,
   (C10_overwrite_in_place demoStore "A" [("neu", "nouveau")] (by decide)).2.1,
   (C10_overwrite_in_place demoStore "A" [("neu", "nouveau")] (by decide)).2.2 1 (by decide)⟩

/-- Strengthened reachability invariant of the quiz session: the score
never exceeds the history length, the history length equals the current
index, and the index never exceeds the number of questions. -/
theorem reach_inv (q : Quiz) (hq : Reachable q) :
    q.score ≤ q.history.length ∧ q.history.length = q.i ∧ q.i ≤ q.order.length := by
  induction hq with
  | start entries chosen order numQ mode quiztype hpool hch hlen hord =>
      simp [startQuiz]
  | submit q input hq hphase hi ih =>
      by_cases h : input = "" <;> simpa [submitStep, h] using ih
  | advance q hq hphase hi ih =>
      obtain ⟨h1, h2, h3⟩ := ih
      refine ⟨?_, ?_, ?_⟩ <;> simp only [advanceStep, List.length_append,
        List.length_cons, List.length_nil]
      · cases hok : q.last_ok <;> simp <;> omega
      · omega
      · omega

/-- C2: in every session state reachable from a start through submits
and advances, `score ≤ len(history) ≤ len(order)`; once the index is
exhausted, `len(history) = len(order)`; and a single advance adds
exactly one history record, one to the index, and one to the score
exactly when the recorded verdict was correct. -/
theorem C2_session_invariant (q : Quiz) (hq : Reachable q) :
    q.score ≤ q.history.length ∧ q.history.length ≤ q.order.length ∧
    (isDone q → q.history.length = q.order.length) ∧
    (advanceStep q).history.length = q.history.length + 1 ∧
    (advanceStep q).i = q.i + 1 ∧
    (advanceStep q).score = q.score + (if q.last_ok then 1 else 0) := by
  obtain ⟨h1, h2, h3⟩ := reach_inv q hq
  refine ⟨h1, by omega, fun hdone => ?_, by simp [advanceStep], by simp [advanceStep], ?_⟩
  · unfold isDone at hdone
    omega
  · simp only [advanceStep]
    cases q.last_ok <;> simp

/-- Witness for C2 at a concrete reachable state. -/
theorem C2_session_invariant_witness :
    demoQuiz.score ≤ demoQuiz.history.length ∧
    demoQuiz.history.length ≤ demoQuiz.order.length ∧
    (isDone demoQuiz → demoQuiz.history.length = demoQuiz.order.length) ∧
    (advanceStep demoQuiz).history.length = demoQuiz.history.length + 1 ∧
    (advanceStep demoQuiz).i = demoQuiz.i + 1 ∧
    (advanceStep demoQuiz).score = demoQuiz.score + (if demoQuiz.last_ok then 1 else 0) :=
  C2_session_invariant demoQuiz
    (Reachable.start demoEntries demoEntries [0, 1, 2, 3] 5 "DE→FR" "Freitext"
      (by decide) (List.Subperm.refl _) (by decide) (by decide))

/-- One correct interaction round: submitting a non-empty answer that
normalizes to the expected answer and advancing increments index and
score, appends one history record, and leaves the question data and the
direction unchanged. -/
theorem round_correct (q : Quiz) (a : String) (ha : a ≠ "")
    (hok : normalize a = normalize (qa_pair (currentEntry q) q.mode).2) :
    (advanceStep (submitStep q a)).items = q.items ∧
    (advanceStep (submitStep q a)).order = q.order ∧
    (advanceStep (submitStep q a)).mode = q.mode ∧
    (advanceStep (submitStep q a)).i = q.i + 1 ∧
    (advanceStep (submitStep q a)).score = q.score + 1 ∧
    (advanceStep (submitStep q a)).history.length = q.history.length + 1 := by
  simp [submitStep, ha, advanceStep, currentEntry, hok]

/-- Running `n` rounds with answers that are non-empty and correct under
normalization yields index, score and history length `n`. -/
theorem runRounds_correct (chosen : List Entry) (order : List Nat)
    (mode quiztype : String) (ans : Nat → String) (n : Nat)
    (hans : ∀ k, k < n → ans k ≠ "" ∧ normalize (ans k)
      = normalize (qa_pair (chosen.getD (order.getD k 0) noEntry) mode).2) :
    (runRounds (startQuiz chosen order mode quiztype) ans n).items = chosen ∧
    (runRounds (startQuiz chosen order mode quiztype) ans n).order = order ∧
    (runRounds (startQuiz chosen order mode quiztype) ans n).mode = mode ∧
    (runRounds (startQuiz chosen order mode quiztype) ans n).i = n ∧
    (runRounds (startQuiz chosen order mode quiztype) ans n).score = n ∧
    (runRounds (startQuiz chosen order mode quiztype) ans n).history.length = n := by
  induction n with
  | zero => simp [runRounds, startQuiz]
  | succ n ih =>
      obtain ⟨hitems, horder, hmode, hi, hscore, hhist⟩ :=
        ih (fun k hk => hans k (Nat.lt_succ_of_lt hk))
      obtain ⟨ha, hok⟩ := hans n (Nat.lt_succ_self n)
      have hcur : currentEntry (runRounds (startQuiz chosen order mode quiztype) ans n)
          = chosen.getD (order.getD n 0) noEntry := by
        simp [currentEntry, hitems, horder, hi]
      have hstep := round_correct (runRounds (startQuiz chosen order mode quiztype) ans n)
        (ans n) ha (by rw [hcur, hmode]; exact hok)
      simp only [runRounds]
      exact ⟨hstep.1.trans hitems, hstep.2.1.trans horder, hstep.2.2.1.trans hmode,
        by rw [hstep.2.2.2.1, hi], by rw [hstep.2.2.2.2.1, hscore],
        by rw [hstep.2.2.2.2.2, hhist]⟩

/-- C3: starting a quiz from a 4-entry pool with requested count 4 in
direction DE→FR and free-text mode samples exactly the 4 pool entries
(in some order), and submitting a normalization-equal non-empty answer
and advancing for each of the 4 questions ends the session in the done
state with a 4-out-of-4 score. -/
theorem C3_perfect_run (pool chosen : List Entry) (order : List Nat)
    (ans : Nat → String)
    (hpool : pool.length = 4)
    (hch : chosen.Subperm pool)
    (hlen : chosen.length = min 4 pool.length)
    (hord : order.Perm (List.range chosen.length))
    (hans : ∀ k, k < 4 → ans k ≠ "" ∧ normalize (ans k)
      = normalize (qa_pair (chosen.getD (order.getD k 0) noEntry) "DE→FR").2) :
    (startQuiz chosen order "DE→FR" "Freitext").items.Perm pool ∧
    (startQuiz chosen order "DE→FR" "Freitext").items.length = 4 ∧
    isDone (runRounds (startQuiz chosen order "DE→FR" "Freitext") ans 4) ∧
    (runRounds (startQuiz chosen order "DE→FR" "Freitext") ans 4).score = 4 ∧
    (runRounds (startQuiz chosen order "DE→FR" "Freitext") ans 4).order.length = 4 ∧
    (runRounds (startQuiz chosen order "DE→FR" "Freitext") ans 4).history.length = 4 := by
  have hchl : chosen.length = 4 := by rw [hlen, hpool]; rfl
  have hperm : chosen.Perm pool := hch.perm_of_length_le (by omega)
  have hordl : order.length = 4 := by
    have h := hord.length_eq
    rwa [List.length_range, hchl] at h
  obtain ⟨hitems, horder, hmode, hi, hscore, hhist⟩ :=
    runRounds_correct chosen order "DE→FR" "Freitext" ans 4 hans
  refine ⟨hperm, hchl, ?_, hscore, by rw [horder]; exact hordl, hhist⟩
  unfold isDone
  rw [horder, hi, hordl]

/-- Witness for C3: the concrete 4-entry pool `demoEntries`, the
identity sample, order `[0, 1, 2, 3]`, and the expected answers. -/
theorem C3_perfect_run_witness :
    (startQuiz demoEntries [0, 1, 2, 3] "DE→FR" "Freitext").items.Perm demoEntries ∧
    (startQuiz demoEntries [0, 1, 2, 3] "DE→FR" "Freitext").items.length = 4 ∧
    isDone (runRounds (startQuiz demoEntries [0, 1, 2, 3] "DE→FR" "Freitext")
      (fun k => ["chien", "chat", "maison", "pain"].getD k "") 4) ∧
    (runRounds (startQuiz demoEntries [0, 1, 2, 3] "DE→FR" "Freitext")
      (fun k => ["chien", "chat", "maison", "pain"].getD k "") 4).score = 4 ∧
    (runRounds (startQuiz demoEntries [0, 1, 2, 3] "DE→FR" "Freitext")
      (fun k => ["chien", "chat", "maison", "pain"].getD k "") 4).order.length = 4 ∧
    (runRounds (startQuiz demoEntries [0, 1, 2, 3] "DE→FR" "Freitext")
      (fun k => ["chien", "chat", "maison", "pain"].getD k "") 4).history.length = 4 :=
  C3_perfect_run demoEntries demoEntries [0, 1, 2, 3]
    (fun k => ["chien", "chat", "maison", "pain"].getD k "")
    (by decide) (List.Subperm.refl _) (by decide) (by decide)
    (by decide)

/-- Full specification of the importer's deduplication loop, for an
arbitrary initial `seen` set: the output is a sublist of the input, its
keys avoid `seen` and are pairwise distinct, every input key already in
`seen` or surviving is covered, and every survivor is the first input
entry carrying its key. -/
theorem dedupe_spec (l : List Entry) (seen : List (String × String)) :
    (dedupe l seen).Sublist l ∧
    (∀ e ∈ dedupe l seen, keyOf e ∉ seen) ∧
    ((dedupe l seen).map keyOf).Nodup ∧
    (∀ e ∈ l, keyOf e ∈ seen ∨ keyOf e ∈ (dedupe l seen).map keyOf) ∧
    (∀ e ∈ dedupe l seen, l.find? (fun x => keyOf x == keyOf e) = some e) := by
  induction l generalizing seen with
  | nil => simp [dedupe]
  | cons e rest ih =>
      by_cases h : keyOf e ∈ seen
      · obtain ⟨s1, s2, s3, s4, s5⟩ := ih seen
        simp only [dedupe, if_pos h]
        refine ⟨s1.cons _, s2, s3, ?_, ?_⟩
        · intro x hx
          rcases List.mem_cons.1 hx with rfl | hx
          · exact Or.inl h
          · exact s4 x hx
        · intro x hx
          have hne : ¬ ((keyOf e == keyOf x) = true) := by
            simp only [beq_iff_eq]
            intro heq
            exact s2 x hx (heq ▸ h)
          have hstep : List.find? (fun y => keyOf y == keyOf x) (e :: rest)
              = List.find? (fun y => keyOf y == keyOf x) rest :=
            List.find?_cons_of_neg _ hne
          rw [hstep]
          exact s5 x hx
      · obtain ⟨s1, s2, s3, s4, s5⟩ := ih (keyOf e :: seen)
        simp only [dedupe, if_neg h]
        refine ⟨s1.cons₂ _, ?_, ?_, ?_, ?_⟩
        · intro x hx
          rcases List.mem_cons.1 hx with rfl | hx
          · exact h
          · exact fun hs => s2 x hx (List.mem_cons_of_mem _ hs)
        · refine List.nodup_cons.2 ⟨?_, s3⟩
          intro hmem
          obtain ⟨x, hx, hkx⟩ := List.mem_map.1 hmem
          exact s2 x hx (hkx ▸ List.mem_cons_self _ _)
        · intro x hx
          rcases List.mem_cons.1 hx with rfl | hx
          · exact Or.inr (List.mem_cons_self _ _)
          · rcases s4 x hx with hs | hd
            · rcases List.mem_cons.1 hs with heq | hs
              · exact Or.inr (by simp [heq])
              · exact Or.inl hs
            · exact Or.inr (List.mem_cons_of_mem _ hd)
        · intro x hx
          rcases List.mem_cons.1 hx with rfl | hx
          · exact List.find?_cons_of_pos _ (by simp)
          · have hne : ¬ ((keyOf e == keyOf x) = true) := by
              simp only [beq_iff_eq]
              intro heq
              exact s2 x hx (heq ▸ List.mem_cons_self _ _)
            have hstep : List.find? (fun y => keyOf y == keyOf x) (e :: rest)
                = List.find? (fun y => keyOf y == keyOf x) rest :=
              List.find?_cons_of_neg _ hne
            rw [hstep]
            exact s5 x hx

/-- C4: the importer's output contains at most one entry per normalized
(source, target) pair — its key list has no duplicates — every raw
extracted pair is represented by a surviving key, and the survivors are
exactly the first-seen raw entries, in their original order (the output
is a sublist of the raw list and each survivor is the first raw entry
with its key). -/
theorem C4_import_dedup (doc : Doc) (hint : String) :
    ((import_docx doc hint).2).Sublist (rawItems doc hint) ∧
    (((import_docx doc hint).2).map keyOf).Nodup ∧
    (∀ e ∈ rawItems doc hint, keyOf e ∈ ((import_docx doc hint).2).map keyOf) ∧
    (∀ e ∈ (import_docx doc hint).2,
      (rawItems doc hint).find? (fun x => keyOf x == keyOf e) = some e) := by
  obtain ⟨s1, _s2, s3, s4, s5⟩ := dedupe_spec (rawItems doc hint) []
  refine ⟨s1, s3, ?_, s5⟩
  intro e he
  rcases s4 e he with hs | hd
  · exact absurd hs (List.not_mem_nil _)
  · exact hd

/-- Witness for C4 at a concrete document with case/accent duplicate
pairs: the survivors' keys are distinct, the case-variant duplicate's
key is still covered, and the survivor for it is the first-seen raw
entry. -/
theorem C4_import_dedup_witness :
    ((import_docx demoDoc "D").2).Sublist (rawItems demoDoc "D") ∧
    (((import_docx demoDoc "D").2).map keyOf).Nodup ∧
    keyOf ⟨"hund", "CHIEN", "D"⟩ ∈ ((import_docx demoDoc "D").2).map keyOf ∧
    (rawItems demoDoc "D").find?
      (fun x => keyOf x == keyOf ⟨"Hund", "chien", "D"⟩) = some ⟨"Hund", "chien", "D"⟩ :=
  ⟨(C4_import_dedup demoDoc "D").1, (C4_import_dedup demoDoc "D").2.1,
   (C4_import_dedup demoDoc "D").2.2.1 ⟨"hund", "CHIEN", "D"⟩ (by decide),
   (C4_import_dedup demoDoc "D").2.2.2 ⟨"Hund", "chien", "D"⟩ (by decide)⟩

/-- A text without a semicolon splits into a single segment. -/
theorem splitSemi_of_not_mem (t : List Char) (h : ';' ∉ t) : splitSemi t = [t] := by
  induction t with
  | nil => rfl
  | cons c t ih =>
      have hc : ¬ (c = ';') := fun hceq => h (hceq ▸ List.mem_cons_self c t)
      have ht : ';' ∉ t := fun hm => h (List.mem_cons_of_mem _ hm)
      simp [splitSemi, hc, ih ht]

/-- C5 counterexample: the paragraph "a;b;c" splits into three trimmed
parts — more than two — and still contributes the pair (a, b); the
code requires at least two parts, not exactly two. -/
theorem C5_counterexample :
    ((splitSemi (stripL ("a;b;c".data))).map stripL).length = 3 ∧
    paraItem "h" "a;b;c" = some ⟨"a", "b", "h"⟩ := by decide

/-- C5 amended: a paragraph yields an imported pair exactly when
splitting its trimmed text on the delimiter yields at least two parts
whose first two trimmed parts are both non-empty (parts beyond the
second are ignored); the pair consists of those first two trimmed
parts.  In particular a paragraph with no delimiter splits into one
part and yields no pair. -/
theorem C5_para_pair (hint : String) (p : String) :
    ((paraItem hint p).isSome ↔
      (2 ≤ ((splitSemi (stripL p.data)).map stripL).length ∧
       ((splitSemi (stripL p.data)).map stripL).getD 0 [] ≠ [] ∧
       ((splitSemi (stripL p.data)).map stripL).getD 1 [] ≠ [])) ∧
    ∀ e, paraItem hint p = some e →
      e.de = String.mk (((splitSemi (stripL p.data)).map stripL).getD 0 []) ∧
      e.fr = String.mk (((splitSemi (stripL p.data)).map stripL).getD 1 []) ∧
      e.source = hint := by
  by_cases hsem : ';' ∈ stripL p.data
  · constructor
    · simp only [paraItem, if_pos hsem]
      split_ifs with hcond
      · simpa using hcond
      · simpa using hcond
    · intro e he
      simp only [paraItem, if_pos hsem] at he
      split_ifs at he with hcond
      · cases he
        exact ⟨rfl, rfl, rfl⟩
  · have hone : splitSemi (stripL p.data) = [stripL p.data] :=
      splitSemi_of_not_mem _ hsem
    constructor
    · simp [paraItem, hsem, hone]
    · intro e he
      simp [paraItem, hsem] at he

/-- Witness for C5's amended theorem at a concrete paragraph, with the
inner hypothesis discharged at the concrete produced entry. -/
theorem C5_para_pair_witness :
    ((paraItem "h" " Hund ; chien ").isSome ↔
      (2 ≤ ((splitSemi (stripL (" Hund ; chien ").data)).map stripL).length ∧
       ((splitSemi (stripL (" Hund ; chien ").data)).map stripL).getD 0 [] ≠ [] ∧
       ((splitSemi (stripL (" Hund ; chien ").data)).map stripL).getD 1 [] ≠ [])) ∧
    ((Entry.mk "Hund" "chien" "h").de
        = String.mk (((splitSemi (stripL (" Hund ; chien ").data)).map stripL).getD 0 []) ∧
     (Entry.mk "Hund" "chien" "h").fr
        = String.mk (((splitSemi (stripL (" Hund ; chien ").data)).map stripL).getD 1 []) ∧
     (Entry.mk "Hund" "chien" "h").source = "h") :=
  ⟨(C5_para_pair "h" " Hund ; chien ").1,
   (C5_para_pair "h" " Hund ; chien ").2 ⟨"Hund", "chien", "h"⟩ (by decide)⟩

/-- C6: importing the document whose single table holds the header row
["de", "fr"] and the data row ["Hund", "chien"] yields exactly one
entry (Hund, chien); in general, a first table row with two non-empty
stripped cells is skipped exactly when both cells contain the language
codes "de" and "fr" case-insensitively. -/
theorem C6_header_skip :
    import_docx ⟨[[["de", "fr"], ["Hund", "chien"]]], []⟩ "T"
      = ("T", [⟨"Hund", "chien", "T"⟩]) ∧
    ∀ (hint c0 c1 : String), stripS c0 ≠ "" → stripS c1 ≠ "" →
      (rowItem hint 0 [c0, c1] = none ↔
        (containsSub "de".data (lowerS (stripS c0)).data = true ∧
         containsSub "fr".data (lowerS (stripS c1)).data = true)) := by
  refine ⟨by decide, fun hint c0 c1 h0 h1 => ?_⟩
  simp only [rowItem, List.map_cons, List.map_nil, List.length_cons,
    List.length_nil, List.getD_cons_zero, List.getD_cons_succ]
  rw [if_neg (by omega)]
  rw [if_neg (by simp [h0, h1])]
  split_ifs with hcond
  · simp only [true_iff]
    exact ⟨hcond.2.1, hcond.2.2⟩
  · simp only [false_iff]  -- some ≠ none side
    intro hab
    exact hcond ⟨by trivial, hab.1, hab.2⟩

/-- Witness for C6's header-row criterion at the concrete header cells. -/
theorem C6_header_skip_witness :
    import_docx ⟨[[["de", "fr"], ["Hund", "chien"]]], []⟩ "T"
      = ("T", [⟨"Hund", "chien", "T"⟩]) ∧
    (rowItem "T" 0 [" DE ", " Fr "] = none ↔
      (containsSub "de".data (lowerS (stripS " DE ")).data = true ∧
       containsSub "fr".data (lowerS (stripS " Fr ")).data = true)) :=
  ⟨C6_header_skip.1, C6_header_skip.2 "T" " DE " " Fr " (by decide) (by decide)⟩

/-- Padding yields exactly 4 options whenever at most 4 are present. -/
theorem padTo4_length (c : String) (o : List String) (h : o.length ≤ 4) :
    (padTo4 c o).length = 4 := by
  simp only [padTo4, List.length_append, List.length_replicate]
  omega

/-- The global fill only appends, and appends only global candidates. -/
theorem fillLoop_suffix (pg : List String) : ∀ o : List String,
    ∃ suf, fillLoop pg o = o ++ suf ∧ ∀ x ∈ suf, x ∈ pg := by
  induction pg with
  | nil => exact fun o => ⟨[], by simp [fillLoop], by simp⟩
  | cons a rest ih =>
      intro o
      simp only [fillLoop]
      by_cases hmem : a ∈ o
      · rw [if_pos hmem]
        split_ifs with h4
        · exact ⟨[], by simp, by simp⟩
        · obtain ⟨suf, hs, hm⟩ := ih o
          exact ⟨suf, hs, fun x hx => List.mem_cons_of_mem _ (hm x hx)⟩
      · rw [if_neg hmem]
        split_ifs with h4
        · exact ⟨[a], rfl, by simp⟩
        · obtain ⟨suf, hs, hm⟩ := ih (o ++ [a])
          refine ⟨a :: suf, by rw [hs, List.append_assoc]; rfl, ?_⟩
          intro x hx
          rcases List.mem_cons.1 hx with rfl | hx
          · exact List.mem_cons_self _ _
          · exact List.mem_cons_of_mem _ (hm x hx)

/-- Starting below 4 options, the global fill never exceeds 4. -/
theorem fillLoop_length_le (pg : List String) : ∀ o : List String,
    o.length < 4 → (fillLoop pg o).length ≤ 4 := by
  induction pg with
  | nil =>
      intro o h
      simpa [fillLoop] using h.le
  | cons a rest ih =>
      intro o h
      simp only [fillLoop]
      by_cases hmem : a ∈ o
      · rw [if_pos hmem]
        split_ifs with h4
        · omega
        · exact ih o h
      · rw [if_neg hmem]
        split_ifs with h4
        · omega
        · apply ih
          have hlen : (o ++ [a]).length = o.length + 1 := by simp
          omega

/-- The global fill either reaches exactly 4 options or exhausts the
global pool (every global candidate is already among the options). -/
theorem fillLoop_complete (pg : List String) : ∀ o : List String,
    (fillLoop pg o).length = 4 ∨ ∀ a ∈ pg, a ∈ fillLoop pg o := by
  induction pg with
  | nil =>
      intro o
      right
      simp
  | cons a rest ih =>
      intro o
      simp only [fillLoop]
      by_cases hmem : a ∈ o
      · rw [if_pos hmem]
        split_ifs with h4
        · exact Or.inl h4
        · rcases ih o with h | h
          · exact Or.inl h
          · refine Or.inr fun x hx => ?_
            rcases List.mem_cons.1 hx with rfl | hx
            · obtain ⟨suf, hs, _⟩ := fillLoop_suffix rest o
              rw [hs]
              exact List.mem_append_left _ hmem
            · exact h x hx
      · rw [if_neg hmem]
        split_ifs with h4
        · exact Or.inl h4
        · rcases ih (o ++ [a]) with h | h
          · exact Or.inl h
          · refine Or.inr fun x hx => ?_
            rcases List.mem_cons.1 hx with rfl | hx
            · obtain ⟨suf, hs, _⟩ := fillLoop_suffix rest (o ++ [x])
              rw [hs]
              exact List.mem_append_left _ (by simp)
            · exact h x hx

/-- C1: for every current correct answer, session item list, direction
and global entry pool — with the set-order, the two shuffles inside
`build_mc_options` and the final shuffle quantified as permutations —
the produced option list has exactly 4 elements and contains the chosen
correct answer; and whenever the pool of available distinct answers
(the correct answer plus all session/global distractors) has at least 4
elements, exactly one option is normalization-equal to the correct
answer — in particular the correct answer itself appears exactly once,
so padding duplicates occur only for pools smaller than 4. -/
theorem C1_mc_spec (correct : String) (session_items all_entries : List Entry)
    (mode : String) (all_answers wrongs pool_global out : List String)
    (_hset : all_answers.Perm (session_items.map (fun e => (qa_pair e mode).2)).dedup)
    (hw : wrongs.Perm (all_answers.filter
      (fun a => !(normalize a == normalize correct))))
    (hpg : pool_global.Perm ((all_entries.map (fun e => (qa_pair e mode).2)).filter
      (fun a => !(normalize a == normalize correct))))
    (hout : out.Perm (build_mc_options correct wrongs pool_global)) :
    out.length = 4 ∧ correct ∈ out ∧
    (4 ≤ ((correct :: (wrongs ++ pool_global)).dedup).length →
      out.countP (fun a => normalize a == normalize correct) = 1 ∧
      out.count correct = 1) := by
  have hwf : ∀ a ∈ wrongs, (normalize a == normalize correct) = false := by
    intro a ha
    have hmem := List.of_mem_filter (hw.subset ha)
    simpa using hmem
  have hpf : ∀ a ∈ pool_global, (normalize a == normalize correct) = false := by
    intro a ha
    have hmem := List.of_mem_filter (hpg.subset ha)
    simpa using hmem
  have hopts_le : (correct :: wrongs.take 3).length ≤ 4 := by
    have := List.length_take 3 wrongs
    simp only [List.length_cons]
    omega
  have hcp0 : (correct :: wrongs.take 3).countP
      (fun a => normalize a == normalize correct) = 1 := by
    rw [List.countP_cons]
    have h0 : (wrongs.take 3).countP (fun a => normalize a == normalize correct) = 0 := by
      refine List.countP_eq_zero.2 ?_
      intro a ha
      simp [hwf a (List.take_subset _ _ ha)]
    simp [h0]
  have hcc0 : (correct :: wrongs.take 3).count correct = 1 := by
    rw [List.count_cons_self]
    have h0 : (wrongs.take 3).count correct = 0 := by
      refine List.count_eq_zero.2 ?_
      intro hm
      have := hwf correct (List.take_subset _ _ hm)
      simp at this
    rw [h0]
  -- core facts about the pre-shuffle list
  have key : (build_mc_options correct wrongs pool_global).length = 4 ∧
      correct ∈ build_mc_options correct wrongs pool_global ∧
      (4 ≤ ((correct :: (wrongs ++ pool_global)).dedup).length →
        (build_mc_options correct wrongs pool_global).countP
          (fun a => normalize a == normalize correct) = 1 ∧
        (build_mc_options correct wrongs pool_global).count correct = 1) := by
    by_cases hlt : (correct :: wrongs.take 3).length < 4
    · -- fewer than 3 session distractors: global fill runs
      have htake : wrongs.take 3 = wrongs := by
        apply List.take_of_length_le
        have := List.length_take 3 wrongs
        simp only [List.length_cons] at hlt
        omega
      obtain ⟨suf, hs, hm⟩ := fillLoop_suffix pool_global (correct :: wrongs.take 3)
      have hXle : (fillLoop pool_global (correct :: wrongs.take 3)).length ≤ 4 :=
        fillLoop_length_le _ _ hlt
      have hbuild : build_mc_options correct wrongs pool_global
          = padTo4 correct (fillLoop pool_global (correct :: wrongs.take 3)) := by
        simp only [build_mc_options, List.singleton_append]
        rw [if_pos hlt]
      refine ⟨?_, ?_, ?_⟩
      · rw [hbuild]
        exact padTo4_length _ _ hXle
      · rw [hbuild]
        simp only [padTo4]
        refine List.mem_append_left _ ?_
        rw [hs]
        exact List.mem_append_left _ (by simp)
      · intro hpool
        -- with a pool of ≥ 4 distinct answers the fill reaches 4 options
        have hX4 : (fillLoop pool_global (correct :: wrongs.take 3)).length = 4 := by
          by_contra hne
          rcases fillLoop_complete pool_global (correct :: wrongs.take 3) with h4 | hall
          · exact hne h4
          · have hsub : (correct :: (wrongs ++ pool_global)).dedup
                ⊆ fillLoop pool_global (correct :: wrongs.take 3) := by
              intro x hx
              have hx' := List.dedup_subset _ hx
              rcases List.mem_cons.1 hx' with rfl | hx'
              · rw [hs]
                exact List.mem_append_left _ (by simp)
              · rcases List.mem_append.1 hx' with hxw | hxp
                · rw [hs]
                  refine List.mem_append_left _ ?_
                  refine List.mem_cons_of_mem _ ?_
                  rw [htake]
                  exact hxw
                · exact hall x hxp
            have hnd : ((correct :: (wrongs ++ pool_global)).dedup).Nodup :=
              List.nodup_dedup _
            have hle := (List.subperm_of_subset hnd hsub).length_le
            omega
        have hXeq : build_mc_options correct wrongs pool_global
            = fillLoop pool_global (correct :: wrongs.take 3) := by
          rw [hbuild]
          simp [padTo4, hX4]
        rw [hXeq, hs]
        constructor
        · rw [List.countP_append]
          have h0 : suf.countP (fun a => normalize a == normalize correct) = 0 := by
            refine List.countP_eq_zero.2 ?_
            intro a ha
            simp [hpf a (hm a ha)]
          simp [h0, hcp0]
        · rw [List.count_append]
          have h0 : suf.count correct = 0 := by
            refine List.count_eq_zero.2 ?_
            intro hmm
            have := hpf correct (hm correct hmm)
            simp at this
          simp [h0, hcc0]
    · -- 3 session distractors available: options are already complete
      have hbuild : build_mc_options correct wrongs pool_global
          = padTo4 correct (correct :: wrongs.take 3) := by
        simp only [build_mc_options, List.singleton_append]
        rw [if_neg hlt]
      have hlen4 : (correct :: wrongs.take 3).length = 4 := by
        omega
      have hXeq : build_mc_options correct wrongs pool_global
          = correct :: wrongs.take 3 := by
        rw [hbuild]
        simp [padTo4, hlen4]
      refine ⟨by rw [hXeq]; exact hlen4, by rw [hXeq]; simp, fun _ => ?_⟩
      rw [hXeq]
      exact ⟨hcp0, hcc0⟩
  exact ⟨hout.length_eq.trans key.1, hout.mem_iff.2 key.2.1,
    fun hpool => ⟨(hout.countP_eq _).trans ((key.2.2 hpool).1),
      (hout.count_eq _).trans ((key.2.2 hpool).2)⟩⟩

/-- Witness for C1 at a concrete session over `demoEntries` with the
correct answer "chien": all permutation hypotheses and the pool-size
hypothesis are discharged by evaluation. -/
theorem C1_mc_spec_witness :
    (["chien", "chat", "maison", "pain"] : List String).length = 4 ∧
    "chien" ∈ (["chien", "chat", "maison", "pain"] : List String) ∧
    (["chien", "chat", "maison", "pain"] : List String).countP
      (fun a => normalize a == normalize "chien") = 1 ∧
    (["chien", "chat", "maison", "pain"] : List String).count "chien" = 1 := by
  have h := C1_mc_spec "chien" demoEntries demoEntries "DE→FR"
    ["chien", "chat", "maison", "pain"] ["chat", "maison", "pain"]
    ["chat", "maison", "pain"] ["chien", "chat", "maison", "pain"]
    (by decide) (by decide) (by decide) (by decide)
  exact ⟨h.1, h.2.1, (h.2.2 (by decide)).1, (h.2.2 (by decide)).2⟩

/-! ## Character-level facts for the normalize idempotence analysis -/

/-- Lowering is idempotent on characters. -/
theorem pyLowerChar_idem (c : Char) : pyLowerChar (pyLowerChar c) = pyLowerChar c := by
  have htab : ∀ p ∈ ucLowerTable, pyLowerChar p.2 = p.2 := by decide
  cases h : ucLowerTable.find? (fun p => p.1 == c) with
  | none =>
      have hc : pyLowerChar c = c := by simp [pyLowerChar, h]
      rw [hc, hc]
  | some p =>
      have hc : pyLowerChar c = p.2 := by simp [pyLowerChar, h]
      rw [hc]
      exact htab p (List.mem_of_find?_eq_some h)

/-- Lowering preserves whitespace-ness. -/
theorem isPySpace_pyLowerChar (c : Char) : isPySpace (pyLowerChar c) = isPySpace c := by
  have htab : ∀ p ∈ ucLowerTable, isPySpace p.1 = false ∧ isPySpace p.2 = false := by decide
  cases h : ucLowerTable.find? (fun p => p.1 == c) with
  | none => simp [pyLowerChar, h]
  | some p =>
      have hc : pyLowerChar c = p.2 := by simp [pyLowerChar, h]
      have hp1 : p.1 = c := by
        have hp := List.find?_some h
        simpa using hp
      obtain ⟨h1, h2⟩ := htab p (List.mem_of_find?_eq_some h)
      rw [hc, h2, ← hp1, h1]

/-- Lowering preserves non-combining-ness. -/
theorem isCombining_pyLowerChar (c : Char) : isCombining (pyLowerChar c) = isCombining c := by
  have htab : ∀ p ∈ ucLowerTable, isCombining p.1 = false ∧ isCombining p.2 = false := by decide
  cases h : ucLowerTable.find? (fun p => p.1 == c) with
  | none => simp [pyLowerChar, h]
  | some p =>
      have hc : pyLowerChar c = p.2 := by simp [pyLowerChar, h]
      have hp1 : p.1 = c := by
        have hp := List.find?_some h
        simpa using hp
      obtain ⟨h1, h2⟩ := htab p (List.mem_of_find?_eq_some h)
      rw [hc, h2, ← hp1, h1]

/-- The NFKD decomposition of a lowered, non-combining, non-space
character has at least one non-combining character, and after dropping
combining marks only inert characters remain. -/
theorem nfkdChar_good (c : Char) (hlow : pyLowerChar c = c)
    (hcomb : isCombining c = false) (hsp : isPySpace c = false) :
    stripComb (nfkdChar c) ≠ [] ∧ ∀ d ∈ stripComb (nfkdChar c), Inert d := by
  have htab : ∀ p ∈ nfkdTable, stripComb p.2 ≠ [] ∧ ∀ d ∈ stripComb p.2, Inert d := by decide
  cases h : nfkdTable.find? (fun p => p.1 == c) with
  | none =>
      have hc : nfkdChar c = [c] := by simp [nfkdChar, h]
      rw [hc]
      have hfit : stripComb [c] = [c] := by simp [stripComb, hcomb]
      rw [hfit]
      refine ⟨by simp, fun d hd => ?_⟩
      rw [List.mem_singleton] at hd
      subst hd
      exact ⟨hlow, hc, hcomb, hsp⟩
  | some p =>
      have hc : nfkdChar c = p.2 := by simp [nfkdChar, h]
      rw [hc]
      exact htab p (List.mem_of_find?_eq_some h)

/-! ## String-level facts for the normalize idempotence analysis -/

/-- dropWhile does nothing when the head (if any) fails the test. -/
theorem dropWhile_eq_self_of_head (l : List Char)
    (h : ∀ c, l.head? = some c → isPySpace c = false) :
    l.dropWhile isPySpace = l := by
  cases l with
  | nil => rfl
  | cons a t =>
      have ha := h a rfl
      simp [List.dropWhile_cons, ha]

/-- Stripping does nothing when neither end is whitespace. -/
theorem stripL_eq_self (l : List Char)
    (hh : ∀ c, l.head? = some c → isPySpace c = false)
    (hl : ∀ c, l.getLast? = some c → isPySpace c = false) :
    stripL l = l := by
  unfold stripL
  rw [dropWhile_eq_self_of_head l hh]
  rw [dropWhile_eq_self_of_head l.reverse (by
    intro c hc
    rw [List.head?_reverse] at hc
    exact hl c hc)]
  exact List.reverse_reverse l

/-- Stripping only removes characters. -/
theorem stripL_subset (l : List Char) : stripL l ⊆ l := by
  intro c hc
  unfold stripL at hc
  rw [List.mem_reverse] at hc
  have h1 := (List.dropWhile_sublist isPySpace).subset hc
  rw [List.mem_reverse] at h1
  exact (List.dropWhile_sublist isPySpace).subset h1

/-- Words produced by the split worker are non-empty, whitespace-free,
and drawn from the input or the accumulator. -/
theorem wordsAux_spec (l : List Char) : ∀ acc : List Char,
    (∀ c ∈ acc, isPySpace c = false) →
    ∀ w ∈ wordsAux l acc, w ≠ [] ∧ ∀ c ∈ w, isPySpace c = false ∧ (c ∈ l ∨ c ∈ acc) := by
  induction l with
  | nil =>
      intro acc hacc w hw
      by_cases h : acc = []
      · subst h
        simp [wordsAux] at hw
      · simp only [wordsAux] at hw
        rw [if_neg (by simpa using h)] at hw
        rw [List.mem_singleton] at hw
        subst hw
        refine ⟨by simpa using h, fun c hc => ?_⟩
        rw [List.mem_reverse] at hc
        exact ⟨hacc c hc, Or.inr hc⟩
  | cons a t ih =>
      intro acc hacc w hw
      simp only [wordsAux] at hw
      by_cases hsp : isPySpace a = true
      · rw [if_pos hsp] at hw
        by_cases h : acc = []
        · subst h
          rw [if_pos (by simp)] at hw
          obtain ⟨hw1, hw2⟩ := ih [] (by simp) w hw
          refine ⟨hw1, fun c hc => ?_⟩
          obtain ⟨hcs, hcm⟩ := hw2 c hc
          rcases hcm with hm | hm
          · exact ⟨hcs, Or.inl (List.mem_cons_of_mem _ hm)⟩
          · simp at hm
        · rw [if_neg (by simpa using h)] at hw
          rcases List.mem_cons.1 hw with rfl | hw
          · refine ⟨by simpa using h, fun c hc => ?_⟩
            rw [List.mem_reverse] at hc
            exact ⟨hacc c hc, Or.inr hc⟩
          · obtain ⟨hw1, hw2⟩ := ih [] (by simp) w hw
            refine ⟨hw1, fun c hc => ?_⟩
            obtain ⟨hcs, hcm⟩ := hw2 c hc
            rcases hcm with hm | hm
            · exact ⟨hcs, Or.inl (List.mem_cons_of_mem _ hm)⟩
            · simp at hm
      · rw [if_neg hsp] at hw
        have hacc' : ∀ c ∈ a :: acc, isPySpace c = false := by
          intro c hc
          rcases List.mem_cons.1 hc with rfl | hc
          · exact Bool.not_eq_true _ ▸ eq_false_of_ne_true hsp
          · exact hacc c hc
        obtain ⟨hw1, hw2⟩ := ih (a :: acc) hacc' w hw
        refine ⟨hw1, fun c hc => ?_⟩
        obtain ⟨hcs, hcm⟩ := hw2 c hc
        rcases hcm with hm | hm
        · exact ⟨hcs, Or.inl (List.mem_cons_of_mem _ hm)⟩
        · rcases List.mem_cons.1 hm with rfl | hm
          · exact ⟨hcs, Or.inl (List.mem_cons_self _ _)⟩
          · exact ⟨hcs, Or.inr hm⟩

/-- On whitespace-free input with a non-empty accumulator, the split
worker returns the single pending word. -/
theorem wordsAux_no_space (t : List Char) : ∀ acc : List Char, acc ≠ [] →
    (∀ c ∈ t, isPySpace c = false) → wordsAux t acc = [acc.reverse ++ t] := by
  induction t with
  | nil =>
      intro acc hacc _
      simp only [wordsAux]
      rw [if_neg (by simpa using hacc)]
      simp
  | cons a t ih =>
      intro acc hacc h
      have ha : isPySpace a = false := h a (List.mem_cons_self a t)
      simp only [wordsAux, ha]
      rw [if_neg (by simp)]
      rw [ih (a :: acc) (by simp) (fun c hc => h c (List.mem_cons_of_mem _ hc))]
      simp

/-- Prepending a whitespace-free word to the input shifts it into the
accumulator. -/
theorem wordsAux_append (w : List Char) : ∀ (acc l : List Char),
    (∀ c ∈ w, isPySpace c = false) →
    wordsAux (w ++ l) acc = wordsAux l (w.reverse ++ acc) := by
  induction w with
  | nil =>
      intro acc l _
      simp
  | cons a w ih =>
      intro acc l h
      have ha : isPySpace a = false := h a (List.mem_cons_self _ _)
      simp only [List.cons_append, wordsAux, ha]
      rw [if_neg (by simp)]
      simp only [List.append_eq]
      rw [ih (a :: acc) l (fun c hc => h c (List.mem_cons_of_mem _ hc))]
      congr 1
      simp

/-- Unfolding equation of `joinSp` on a list with at least two words. -/
theorem joinSp_cons_cons (w w2 : List Char) (ws : List (List Char)) :
    joinSp (w :: w2 :: ws) = w ++ ' ' :: joinSp (w2 :: ws) := rfl

/-- The join of a non-empty word list headed by a non-empty word is
non-empty. -/
theorem joinSp_ne_nil (w : List Char) (ws : List (List Char)) (hw : w ≠ []) :
    joinSp (w :: ws) ≠ [] := by
  cases ws with
  | nil => exact hw
  | cons w2 ws2 =>
      rw [joinSp_cons_cons]
      simp

/-- Characters of a join are word characters or the separating space. -/
theorem mem_joinSp (ws : List (List Char)) (c : Char) (hc : c ∈ joinSp ws) :
    (∃ w ∈ ws, c ∈ w) ∨ c = ' ' := by
  induction ws with
  | nil => simp [joinSp] at hc
  | cons w ws ih =>
      cases ws with
      | nil => exact Or.inl ⟨w, List.mem_cons_self _ _, hc⟩
      | cons w2 ws2 =>
          rw [joinSp_cons_cons] at hc
          rcases List.mem_append.1 hc with h | h
          · exact Or.inl ⟨w, List.mem_cons_self _ _, h⟩
          · rcases List.mem_cons.1 h with rfl | h
            · exact Or.inr rfl
            · rcases ih h with ⟨w', hw', hcw⟩ | h'
              · exact Or.inl ⟨w', List.mem_cons_of_mem _ hw', hcw⟩
              · exact Or.inr h'

/-- The head of a join of non-empty whitespace-free words is not
whitespace. -/
theorem head?_joinSp (ws : List (List Char))
    (h : ∀ w ∈ ws, w ≠ [] ∧ ∀ c ∈ w, isPySpace c = false) :
    ∀ c, (joinSp ws).head? = some c → isPySpace c = false := by
  cases ws with
  | nil =>
      intro c hc
      simp [joinSp] at hc
  | cons w ws =>
      intro c hc
      obtain ⟨hw, hwc⟩ := h w (List.mem_cons_self _ _)
      obtain ⟨a, t, rfl⟩ := List.exists_cons_of_ne_nil hw
      have hhead : (joinSp ((a :: t) :: ws)).head? = some a := by
        cases ws with
        | nil => rfl
        | cons w2 ws2 => rw [joinSp_cons_cons]; rfl
      rw [hhead] at hc
      injection hc with hac
      subst hac
      exact hwc _ (List.mem_cons_self _ _)

/-- The last character of a join of non-empty whitespace-free words is
not whitespace. -/
theorem getLast?_joinSp (ws : List (List Char))
    (h : ∀ w ∈ ws, w ≠ [] ∧ ∀ c ∈ w, isPySpace c = false) :
    ∀ c, (joinSp ws).getLast? = some c → isPySpace c = false := by
  induction ws with
  | nil =>
      intro c hc
      simp [joinSp] at hc
  | cons w ws ih =>
      intro c hc
      obtain ⟨hw, hwc⟩ := h w (List.mem_cons_self _ _)
      cases ws with
      | nil => exact hwc c (List.mem_of_getLast?_eq_some hc)
      | cons w2 ws2 =>
          rw [joinSp_cons_cons] at hc
          rw [List.getLast?_append_of_ne_nil _ (by simp)] at hc
          have hne : joinSp (w2 :: ws2) ≠ [] :=
            joinSp_ne_nil w2 ws2 (h w2 (by simp)).1
          have hcc : (joinSp (w2 :: ws2)).getLast? = some c := by
            obtain ⟨b, t2, hbt⟩ := List.exists_cons_of_ne_nil hne
            rw [hbt] at hc ⊢
            simpa using hc
          exact ih (fun w' hw' => h w' (List.mem_cons_of_mem _ hw')) c hcc

/-- Splitting a join of non-empty whitespace-free words recovers them. -/
theorem wordsOf_joinSp (ws : List (List Char))
    (h : ∀ w ∈ ws, w ≠ [] ∧ ∀ c ∈ w, isPySpace c = false) :
    wordsOf (joinSp ws) = ws := by
  induction ws with
  | nil => rfl
  | cons w ws ih =>
      obtain ⟨hw, hwc⟩ := h w (List.mem_cons_self _ _)
      cases ws with
      | nil =>
          show wordsAux (joinSp [w]) [] = [w]
          obtain ⟨a, t, rfl⟩ := List.exists_cons_of_ne_nil hw
          show wordsAux (a :: t) [] = [a :: t]
          have ha : isPySpace a = false := hwc a (List.mem_cons_self _ _)
          simp only [wordsAux, ha]
          rw [if_neg (by simp)]
          rw [wordsAux_no_space t [a] (by simp)
            (fun c hc => hwc c (List.mem_cons_of_mem _ hc))]
          rfl
      | cons w2 ws2 =>
          show wordsAux (joinSp (w :: w2 :: ws2)) [] = w :: w2 :: ws2
          rw [joinSp_cons_cons]
          rw [wordsAux_append w [] (' ' :: joinSp (w2 :: ws2)) hwc]
          simp only [List.append_nil, wordsAux]
          rw [if_pos (by decide)]
          rw [if_neg (by simpa using hw)]
          rw [List.reverse_reverse]
          congr 1
          exact ih (fun w' hw' => h w' (List.mem_cons_of_mem _ hw'))

/-- A character-wise fixed map is the identity. -/
theorem map_eq_self_of_fixed (f : Char → Char) (l : List Char)
    (h : ∀ c ∈ l, f c = c) : l.map f = l := by
  induction l with
  | nil => rfl
  | cons a t ih =>
      rw [List.map_cons, h a (List.mem_cons_self _ _),
        ih (fun c hc => h c (List.mem_cons_of_mem _ hc))]

/-- NFKD is the identity on trivially-decomposing characters. -/
theorem nfkdL_eq_self (l : List Char) (h : ∀ c ∈ l, nfkdChar c = [c]) :
    nfkdL l = l := by
  induction l with
  | nil => rfl
  | cons a t ih =>
      have iht := ih (fun c hc => h c (List.mem_cons_of_mem _ hc))
      simp only [nfkdL] at iht ⊢
      simp only [List.map_cons, List.flatten_cons, h a (List.mem_cons_self _ _), iht,
        List.singleton_append]

/-- Dropping combining marks distributes over the space-joined word
structure (the separator is never combining). -/
theorem stripComb_nfkdL_joinSp (ws : List (List Char)) :
    stripComb (nfkdL (joinSp ws)) = joinSp (ws.map (fun w => stripComb (nfkdL w))) := by
  induction ws with
  | nil => rfl
  | cons w ws ih =>
      cases ws with
      | nil => rfl
      | cons w2 ws2 =>
          have hspc : nfkdChar ' ' = [' '] := by decide
          have hsc : (!isCombining ' ') = true := by decide
          have h1 : nfkdL (w ++ ' ' :: joinSp (w2 :: ws2))
              = nfkdL w ++ ' ' :: nfkdL (joinSp (w2 :: ws2)) := by
            simp [nfkdL, hspc]
          rw [joinSp_cons_cons, h1]
          simp only [stripComb, List.filter_append, List.filter_cons, hsc, if_true]
          simp only [List.map_cons]
          rw [joinSp_cons_cons]
          simp only [stripComb] at ih
          rw [ih]
          rfl

/-- A join of inert words is a fixpoint of the normalize pipeline. -/
theorem normalizeL_fix (ws : List (List Char)) (h : GoodWords ws) :
    normalizeL (joinSp ws) = joinSp ws := by
  have hwords : ∀ w ∈ ws, w ≠ [] ∧ ∀ c ∈ w, isPySpace c = false :=
    fun w hw => ⟨(h w hw).1, fun c hc => ((h w hw).2 c hc).2.2.2⟩
  have hchar : ∀ c ∈ joinSp ws, Inert c ∨ c = ' ' := by
    intro c hc
    rcases mem_joinSp ws c hc with ⟨w, hw, hcw⟩ | rfl
    · exact Or.inl ((h w hw).2 c hcw)
    · exact Or.inr rfl
  have hstrip : stripL (joinSp ws) = joinSp ws :=
    stripL_eq_self _ (head?_joinSp ws hwords) (getLast?_joinSp ws hwords)
  have hlower : lowerL (joinSp ws) = joinSp ws := by
    apply map_eq_self_of_fixed
    intro c hc
    rcases hchar c hc with hi | rfl
    · exact hi.1
    · decide
  have hcollapse : collapseL (joinSp ws) = joinSp ws := by
    unfold collapseL
    rw [wordsOf_joinSp ws hwords]
  have hnfkd : nfkdL (joinSp ws) = joinSp ws := by
    apply nfkdL_eq_self
    intro c hc
    rcases hchar c hc with hi | rfl
    · exact hi.2.1
    · decide
  have hcomb : stripComb (joinSp ws) = joinSp ws := by
    unfold stripComb
    rw [List.filter_eq_self]
    intro c hc
    rcases hchar c hc with hi | rfl
    · simp [hi.2.2.1]
    · decide
  unfold normalizeL
  rw [hstrip, hlower, hcollapse, hnfkd, hcomb]

/-- On input free of standalone combining marks, the normalize pipeline
produces a join of inert words. -/
theorem normalizeL_canonical (l : List Char)
    (hl : ∀ c ∈ l, isCombining c = false) :
    ∃ ws, normalizeL l = joinSp ws ∧ GoodWords ws := by
  have hl1 : ∀ c ∈ lowerL (stripL l), pyLowerChar c = c ∧ isCombining c = false := by
    intro c hc
    obtain ⟨c0, hc0, rfl⟩ := List.mem_map.1 hc
    have hc0l : c0 ∈ l := stripL_subset l hc0
    refine ⟨pyLowerChar_idem c0, ?_⟩
    rw [isCombining_pyLowerChar]
    exact hl c0 hc0l
  have hws0 := wordsAux_spec (lowerL (stripL l)) [] (by simp)
  refine ⟨(wordsOf (lowerL (stripL l))).map (fun w => stripComb (nfkdL w)), ?_, ?_⟩
  · unfold normalizeL collapseL
    exact stripComb_nfkdL_joinSp _
  · intro w' hw'
    obtain ⟨w, hw, rfl⟩ := List.mem_map.1 hw'
    obtain ⟨hwne, hwc⟩ := hws0 w hw
    have hfact : ∀ c ∈ w, pyLowerChar c = c ∧ isCombining c = false ∧ isPySpace c = false := by
      intro c hc
      obtain ⟨hsp, hmem⟩ := hwc c hc
      rcases hmem with hm | hm
      · exact ⟨(hl1 c hm).1, (hl1 c hm).2, hsp⟩
      · simp at hm
    constructor
    · obtain ⟨a, t, rfl⟩ := List.exists_cons_of_ne_nil hwne
      have ha := hfact a (List.mem_cons_self _ _)
      have hne := (nfkdChar_good a ha.1 ha.2.1 ha.2.2).1
      have hsplit : stripComb (nfkdL (a :: t))
          = stripComb (nfkdChar a) ++ stripComb (nfkdL t) := by
        simp [nfkdL, stripComb, List.filter_append]
      rw [hsplit]
      intro habs
      rcases List.append_eq_nil.1 habs with ⟨h1, _⟩
      exact hne h1
    · intro d hd
      have hd' : d ∈ nfkdL w ∧ (!isCombining d) = true := List.mem_filter.1 hd
      obtain ⟨c, hcw, hdls⟩ :=
        (by simpa [nfkdL] using hd'.1 : ∃ a, a ∈ w ∧ d ∈ nfkdChar a)
      have hc := hfact c hcw
      have hdmem : d ∈ stripComb (nfkdChar c) := List.mem_filter.2 ⟨hdls, hd'.2⟩
      exact (nfkdChar_good c hc.1 hc.2.1 hc.2.2).2 d hdmem

/-- C9 counterexample: `normalize` is not idempotent on every string.
In "a ́" (an "a", a space, and a standalone combining acute U+0301) the
combining mark survives stripping and whitespace collapsing but is then
deleted by the combining-mark filter, leaving a trailing space that a
second application strips away. -/
theorem C9_counterexample :
    normalize (normalize "a ́") ≠ normalize "a ́" := by decide

/-- C9 amended: `normalize` is total (a Lean function), case and accent
variants collapse — "Préhistoire" and "prehistoire" normalize
identically — and `normalize` is idempotent on every string containing
no standalone combining mark (the restriction the counterexample
forces). -/
theorem C9_normalize_idem :
    normalize "Préhistoire" = normalize "prehistoire" ∧
    ∀ s : String, (∀ c ∈ s.data, isCombining c = false) →
      normalize (normalize s) = normalize s := by
  refine ⟨by decide, fun s hs => ?_⟩
  obtain ⟨ws, hws, hgood⟩ := normalizeL_canonical s.data hs
  show String.mk (normalizeL (String.mk (normalizeL s.data)).data)
      = String.mk (normalizeL s.data)
  have hdata : (String.mk (normalizeL s.data)).data = normalizeL s.data := rfl
  rw [hdata, hws, normalizeL_fix ws hgood]

/-- Witness for C9's amended idempotence at a concrete accented,
unevenly spaced string. -/
theorem C9_normalize_idem_witness :
    normalize "Préhistoire" = normalize "prehistoire" ∧
    normalize (normalize "  la Préhistoire   déjà vue ")
      = normalize "  la Préhistoire   déjà vue " :=
  ⟨C9_normalize_idem.1,
   C9_normalize_idem.2 "  la Préhistoire   déjà vue " (by decide)⟩

end Vocab
